import Mathlib

/-!
Verification development for the `html-template-engine` package
(`index.mjs`): a comment-directive template engine over plain strings.

Strings are embedded as `List Char`.  JavaScript's regular-expression
operations are embedded as deterministic scanners: every regex used by the
source is anchored-deterministic (greedy classes are followed by characters
disjoint from the class, lazy bodies are resolved by a nearest-occurrence
search), so each one is realised as a total parser returning the captured
groups together with the matched span.

The source file appears in two revisions.  Every function is embedded
from the revision the package test-suite and README pin as the live code
(recursive include resolution, quoted filenames, line-scoped conditional
includes, a `renderTemplate` that runs unconditional inclusion before
conditional inclusion and performs no minification); the other revision
is an earlier state of the file.

Effects are made explicit: the file-reader capability is a function
`List Char → Option (List Char)` (path to content, `none` = read failure),
and the inclusion resolvers return, besides the output text, the trace of
reader invocations and the list of logged inclusion failures (a failure is
logged with the offending filename; the error-message text carried by the
JavaScript exception is abstracted away).  Unbounded recursion through
file contents (which diverges in JavaScript on cyclic includes) is bounded
by an explicit recursion depth; theorems quantify over sufficient depth.
Scanners recurse on a fuel initialised to the string length, which always
suffices; this keeps every definition structurally recursive and hence
kernel-computable.

`node:path`'s `join` is modelled for the shapes the engine uses: a base
directory of "." resolves to the bare filename, otherwise the two parts
are joined with a slash.  JavaScript's `$`-substitution patterns in string
replacements are not modelled (no directive content exercises them).
-/

/-- ASCII subset of JavaScript's regex `\s` class. -/
def isWs (c : Char) : Bool :=
  c == ' ' || c == '\t' || c == '\n' || c == '\r' || c == '\x0b' || c == '\x0c'

/-- JavaScript's regex `\w` class. -/
def isWordChar (c : Char) : Bool :=
  c.isAlphanum || c == '_'

/-- The filename class `[\w\-.]` of the include matchers. -/
def isFnameChar (c : Char) : Bool :=
  isWordChar c || c == '-' || c == '.'

def isQuote (c : Char) : Bool :=
  c == '"' || c == '\''

def litComOpen : List Char := "<!--".toList

def litArrow : List Char := "-->".toList

def litRenderIfP : List Char := "renderIf(".toList

def litEndIfP : List Char := "endIf()".toList

def litIncludeP : List Char := "include(".toList

def litIncludeIfP : List Char := "includeIf(".toList

def crlfChars : List Char := ['\r', '\n']

def lfChars : List Char := ['\n']

/-- `begWith pat l` : does `l` start with `pat`? -/
def begWith : List Char → List Char → Bool
  | [], _ => true
  | _ :: _, [] => false
  | p :: ps, c :: cs => p == c && begWith ps cs

/-- Strip the literal `pat` from the front of `l`. -/
def stripPre : List Char → List Char → Option (List Char)
  | [], l => some l
  | _ :: _, [] => none
  | p :: ps, c :: cs => if p == c then stripPre ps cs else none

/-- Does `pat` occur as a contiguous substring of `l`? -/
def hasSub : List Char → List Char → Bool
  | [], pat => begWith pat []
  | l@(_ :: cs), pat => begWith pat l || hasSub cs pat

/-- Strip one optional quote character (the `["']?` regex piece). -/
def stripQuote : List Char → List Char
  | [] => []
  | c :: cs => if isQuote c then cs else c :: cs

/-- Strip one optional semicolon (the `;?` regex piece). -/
def stripSemi : List Char → List Char
  | [] => []
  | c :: cs => if c == ';' then cs else c :: cs

/-- Trim surrounding whitespace (JavaScript `String.prototype.trim`). -/
def trimWs (l : List Char) : List Char :=
  ((l.dropWhile isWs).reverse.dropWhile isWs).reverse

/-- Fueled core of `replAll`.  The fuel bounds the number of scanning
steps; the wrapper passes the string length, which always suffices. -/
def goRA (pat rep : List Char) : Nat → List Char → List Char
  | 0, s => s
  | Nat.succ f, s =>
    match s with
    | [] => []
    | c :: cs =>
      if begWith pat (c :: cs) then rep ++ goRA pat rep f ((c :: cs).drop pat.length)
      else c :: goRA pat rep f cs

/-- JavaScript `s.replaceAll(pat, rep)` for a non-empty string pattern:
replace every occurrence, scanning left to right, never rescanning
replacement text.  (For `pat = ""` the JavaScript behaviour is not
exercised by the engine; we return `s`.) -/
def replAll (s pat rep : List Char) : List Char :=
  match pat with
  | [] => s
  | _ :: _ => goRA pat rep s.length s

/-- JavaScript `s.replace(pat, rep)` for a string pattern: replace the
first occurrence only. -/
def replFirst : List Char → List Char → List Char → List Char
  | [], pat, rep => if begWith pat [] then rep else []
  | c :: cs, pat, rep =>
    if begWith pat (c :: cs) then rep ++ (c :: cs).drop pat.length
    else c :: replFirst cs pat rep

/-- Split on `/\r?\n/` (JavaScript `String.prototype.split`): `\n` and
`\r\n` separate lines, a lone `\r` does not. -/
def splitLines : List Char → List (List Char)
  | [] => [[]]
  | [c] => if c == '\n' then [[], []] else [[c]]
  | c :: d :: ds =>
    if c == '\n' then [] :: splitLines (d :: ds)
    else if c == '\r' && d == '\n' then [] :: splitLines ds
    else
      match splitLines (d :: ds) with
      | [] => [[c]]
      | l :: ls => (c :: l) :: ls

/-- JavaScript `Array.prototype.join` with separator `sep`. -/
def joinWith (sep : List Char) : List (List Char) → List Char
  | [] => []
  | [x] => x
  | x :: xs => x ++ sep ++ joinWith sep xs

/-- A view-model value: the engine accepts strings, numbers and booleans.
Numbers are modelled as integers (the directives exercised here never
involve fractional values). -/
inductive JsVal where
  | str : List Char → JsVal
  | num : Int → JsVal
  | bool : Bool → JsVal
deriving DecidableEq

/-- The flat view model: key/value pairs looked up by exact key. -/
abbrev VM := List (List Char × JsVal)

def lookupVM : VM → List Char → Option JsVal
  | [], _ => none
  | (k, v) :: rest, key => if k == key then some v else lookupVM rest key

/-- JavaScript truthiness of a view-model value. -/
def truthy : JsVal → Bool
  | .str s => !s.isEmpty
  | .num i => !(i == 0)
  | .bool b => b

/-- Truthiness of a lookup result: an absent key is falsy. -/
def truthyO : Option JsVal → Bool
  | none => false
  | some v => truthy v

/-- JavaScript `String(value)` on a view-model value. -/
def jsString : JsVal → List Char
  | .str s => s
  | .num i => (toString i).toList
  | .bool b => if b then "true".toList else "false".toList

def jsStringO : Option JsVal → List Char
  | none => []
  | some v => jsString v

/-- Matcher for the placeholder regex `<!--\s*(\w+)\s*-->` anchored at the
head of `l`.  On success returns the captured key and the matched length
minus one. -/
def matchPH (l : List Char) : Option (List Char × Nat) := do
  let r1 ← stripPre litComOpen l
  let r2 := r1.dropWhile isWs
  let key := r2.takeWhile isWordChar
  if key.isEmpty then none else
  let r3 := r2.dropWhile isWordChar
  let r4 := r3.dropWhile isWs
  let r5 ← stripPre litArrow r4
  some (key, l.length - r5.length - 1)

/-- Fueled core of `replacePlaceholders`: the global regex replace, with
the replacer `(match, key) => viewModel[key] ? String(viewModel[key]) :
match`. -/
def goRP (vm : VM) : Nat → List Char → List Char
  | 0, l => l
  | Nat.succ f, l =>
    match matchPH l with
    | some (key, n) =>
      (if truthyO (lookupVM vm key) then jsStringO (lookupVM vm key)
       else l.take (n + 1)) ++ goRP vm f (l.drop (n + 1))
    | none =>
      match l with
      | [] => []
      | c :: cs => c :: goRP vm f cs

/-- `replacePlaceholders(html, viewModel)`:
`html.replace(/<!--\s*(\w+)\s*-->/g, replacer)` where the replacer
substitutes `String(viewModel[key])` for a truthy key and keeps the match
otherwise. -/
def replacePlaceholders (html : List Char) (vm : VM) : List Char :=
  goRP vm html.length html

/-- Matcher for the opening marker `<!--\s*renderIf\(([^)]+)\);?\s*-->`
anchored at the head of `l`. -/
def matchROpen (l : List Char) : Option (List Char × Nat) := do
  let r1 ← stripPre litComOpen l
  let r2 := r1.dropWhile isWs
  let r3 ← stripPre litRenderIfP r2
  let key := r3.takeWhile (fun c => !(c == ')'))
  if key.isEmpty then none else
  let r4 := r3.dropWhile (fun c => !(c == ')'))
  let r5 ← stripPre [')'] r4
  let r6 := stripSemi r5
  let r7 := r6.dropWhile isWs
  let r8 ← stripPre litArrow r7
  some (key, l.length - r8.length - 1)

/-- Matcher for the closing marker `<!--\s*endIf\(\);?\s*-->` anchored at
the head of `l`; returns the matched length minus one. -/
def matchEndIf (l : List Char) : Option Nat := do
  let r1 ← stripPre litComOpen l
  let r2 := r1.dropWhile isWs
  let r3 ← stripPre litEndIfP r2
  let r4 := stripSemi r3
  let r5 := r4.dropWhile isWs
  let r6 ← stripPre litArrow r5
  some (l.length - r6.length - 1)

/-- Search for the nearest following closing marker (the lazy
`([\s\S]*?)` of the block regex): returns the skipped content and the
offset just before the position after the closing marker. -/
def findEndIf : List Char → Option (List Char × Nat)
  | [] => none
  | l@(c :: cs) =>
    match matchEndIf l with
    | some n => some ([], n)
    | none =>
      match findEndIf cs with
      | some (content, n) => some (c :: content, n + 1)
      | none => none

/-- Fueled core of `renderIf`: global replace of
`<!--\s*renderIf\(([^)]+)\);?\s*-->([\s\S]*?)<!--\s*endIf\(\);?\s*-->`
with the inner content when the key is truthy and nothing otherwise. -/
def goRI (vm : VM) : Nat → List Char → List Char
  | 0, l => l
  | Nat.succ f, l =>
    match matchROpen l with
    | some (key, n1) =>
      match findEndIf (l.drop (n1 + 1)) with
      | some (content, n2) =>
        (if truthyO (lookupVM vm key) then content else []) ++
          goRI vm f ((l.drop (n1 + 1)).drop (n2 + 1))
      | none =>
        match l with
        | [] => []
        | c :: cs => c :: goRI vm f cs
    | none =>
      match l with
      | [] => []
      | c :: cs => c :: goRI vm f cs

/-- `renderIf(html, viewModel)`: resolve every conditional block against
the view model. -/
def renderIf (html : List Char) (vm : VM) : List Char :=
  goRI vm html.length html

/-- Fueled core of the whitespace collapse `replace(/\s+/gm, " ")`. -/
def goWC : Nat → List Char → List Char
  | 0, l => l
  | Nat.succ f, l =>
    match l with
    | [] => []
    | c :: cs =>
      if isWs c then ' ' :: goWC f (cs.dropWhile isWs)
      else c :: goWC f cs

/-- Collapse every maximal whitespace run to a single space. -/
def wsCollapse (l : List Char) : List Char :=
  goWC l.length l

/-- Find the nearest `-->` and return the offset just before the position
after it (the lazy body of the comment regex). -/
def findCClose : List Char → Option Nat
  | [] => none
  | l@(_ :: cs) =>
    match stripPre litArrow l with
    | some _ => some 2
    | none =>
      match findCClose cs with
      | some n => some (n + 1)
      | none => none

/-- Matcher for the comment regex `<!--[\s\S]*?-->` anchored at the head
of `l`; returns the matched length minus one. -/
def matchComment (l : List Char) : Option Nat :=
  if begWith litComOpen l then
    match findCClose (l.drop 4) with
    | some n => some (n + 4)
    | none => none
  else none

/-- Fueled core of the comment removal `replace(/<!--[\s\S]*?-->/g, "")`. -/
def goSC : Nat → List Char → List Char
  | 0, l => l
  | Nat.succ f, l =>
    match matchComment l with
    | some n => goSC f (l.drop (n + 1))
    | none =>
      match l with
      | [] => []
      | c :: cs => c :: goSC f cs

/-- Remove every (non-greedily matched) HTML comment span. -/
def stripComments (l : List Char) : List Char :=
  goSC l.length l

/-- `minifyHtml(html)`: collapse whitespace runs to single spaces, then
remove the remaining comment spans. -/
def minifyHtml (html : List Char) : List Char :=
  stripComments (wsCollapse html)

/-- The file-reader capability: a path maps to its content, or to `none`
when the read fails. -/
abbrev FileReader := List Char → Option (List Char)

/-- Result of an effectful resolver: the output text, the trace of
reader invocations (paths, in call order) and the logged inclusion
failures (offending filenames, in log order). -/
structure Eff where
  out : List Char
  reads : List (List Char)
  logs : List (List Char)
deriving DecidableEq

/-- `node:path` `join(base, filename)` for the shapes used here. -/
def joinPath (base fn : List Char) : List Char :=
  if base == ['.'] then fn else base ++ '/' :: fn

/-- Matcher for the include regex
`<!--\s*include\(\s*["']?([\w\-.]+)["']?\s*\);?\s*-->` anchored at the
head of `l`: returns the captured filename and the matched length minus
one. -/
def matchInc (l : List Char) : Option (List Char × Nat) := do
  let r1 ← stripPre litComOpen l
  let r2 := r1.dropWhile isWs
  let r3 ← stripPre litIncludeP r2
  let r4 := r3.dropWhile isWs
  let r5 := stripQuote r4
  let fn := r5.takeWhile isFnameChar
  if fn.isEmpty then none else
  let r6 := r5.dropWhile isFnameChar
  let r7 := stripQuote r6
  let r8 := r7.dropWhile isWs
  let r9 ← stripPre [')'] r8
  let r10 := stripSemi r9
  let r11 := r10.dropWhile isWs
  let r12 ← stripPre litArrow r11
  some (fn, l.length - r12.length - 1)

/-- Fueled core of `scanIncludes`: the `while (exec)` loop collecting
every match of the include regex, left to right, non-overlapping. -/
def goScan : Nat → List Char → List (List Char × List Char)
  | 0, _ => []
  | Nat.succ f, l =>
    match matchInc l with
    | some (fn, n) => (l.take (n + 1), fn) :: goScan f (l.drop (n + 1))
    | none =>
      match l with
      | [] => []
      | _ :: cs => goScan f cs

/-- All matches of the include regex in `l`, as (matched text, filename)
pairs in match order. -/
def scanIncludes (l : List Char) : List (List Char × List Char) :=
  goScan l.length l

/-- The per-match loop body of `includeFiles`: read each file (resolving
its content with `resolve`), collecting the replacement list, the reader
trace and the failure log. -/
def resolveMs (fs : FileReader) (base : List Char) (resolve : List Char → Eff) :
    List (List Char × List Char) →
    List (List Char × List Char) × List (List Char) × List (List Char)
  | [] => ([], [], [])
  | (mt, fn) :: rest =>
    let t := resolveMs fs base resolve rest
    let path := joinPath base fn
    match fs path with
    | some c =>
      let e := resolve c
      ((mt, e.out) :: t.1, (path :: e.reads) ++ t.2.1, e.logs ++ t.2.2)
    | none => ((mt, []) :: t.1, path :: t.2.1, fn :: t.2.2)

/-- `includeFiles(html, baseDir)`: collect every include match, read each
file (recursively resolving its content for further includes — the
recursion depth is the explicit first `Nat`, at depth 0 fetched content is
substituted unresolved), replace a failed read with the empty string and
log it, then apply the replacements with `replaceAll` in match order. -/
def includeFiles (fs : FileReader) : Nat → List Char → List Char → Eff
  | 0, html, base =>
    let r := resolveMs fs base (fun c => ⟨c, [], []⟩) (scanIncludes html)
    ⟨r.1.foldl (fun h p => replAll h p.1 p.2) html, r.2.1, r.2.2⟩
  | Nat.succ d, html, base =>
    let r := resolveMs fs base (fun c => includeFiles fs d c base) (scanIncludes html)
    ⟨r.1.foldl (fun h p => replAll h p.1 p.2) html, r.2.1, r.2.2⟩

/-- Matcher for the conditional-include regex
`<!--\s*includeIf\(([^,]+),\s*["']?([\w\-.]+)["']?\s*\);?\s*-->` anchored
at the head of `l`: returns the trimmed key, the filename and the matched
length minus one. -/
def matchIncIf (l : List Char) : Option (List Char × List Char × Nat) := do
  let r1 ← stripPre litComOpen l
  let r2 := r1.dropWhile isWs
  let r3 ← stripPre litIncludeIfP r2
  let key := r3.takeWhile (fun c => !(c == ','))
  if key.isEmpty then none else
  let r4 := r3.dropWhile (fun c => !(c == ','))
  let r5 ← stripPre [','] r4
  let r6 := r5.dropWhile isWs
  let r7 := stripQuote r6
  let fn := r7.takeWhile isFnameChar
  if fn.isEmpty then none else
  let r8 := r7.dropWhile isFnameChar
  let r9 := stripQuote r8
  let r10 := r9.dropWhile isWs
  let r11 ← stripPre [')'] r10
  let r12 := stripSemi r11
  let r13 := r12.dropWhile isWs
  let r14 ← stripPre litArrow r13
  some (trimWs key, fn, l.length - r14.length - 1)

/-- The guard `html.match(/<!--\s*includeIf\(/)` anchored at the head. -/
def incIfOpenAt (l : List Char) : Bool :=
  match stripPre litComOpen l with
  | some r => begWith litIncludeIfP (r.dropWhile isWs)
  | none => false

/-- The guard `html.match(/<!--\s*includeIf\(/)` anywhere in `l`. -/
def hasIncIfOpen : List Char → Bool
  | [] => false
  | l@(_ :: cs) => incIfOpenAt l || hasIncIfOpen cs

/-- First match of the conditional-include regex in a line: returns the
matched text, the (trimmed) key and the filename. -/
def findIncIfLine : List Char → Option (List Char × List Char × List Char)
  | [] => none
  | l@(_ :: cs) =>
    match matchIncIf l with
    | some (key, fn, n) => some (l.take (n + 1), key, fn)
    | none => findIncIfLine cs

/-- The per-line body of `includeFilesIf`.  `inc` resolves unconditional
includes in fetched content; `recur` resolves conditional includes in
fetched content (the recursive call, depth-bounded by the caller).  A
falsy key leaves the line untouched; a read failure removes the directive
from the line and logs the filename. -/
def ifLineStep (fs : FileReader) (base : List Char) (vm : VM)
    (inc recur : List Char → Eff) (line : List Char) :
    List Char × List (List Char) × List (List Char) :=
  match findIncIfLine line with
  | none => (line, [], [])
  | some (mt, key, fn) =>
    if truthyO (lookupVM vm key) then
      let path := joinPath base fn
      match fs path with
      | some c =>
        let c1 := renderIf c vm
        let c2 := replacePlaceholders c1 vm
        let e3 := inc c2
        let e4 := recur e3.out
        (replFirst line mt e4.out, path :: (e3.reads ++ e4.reads), e3.logs ++ e4.logs)
      | none => (replFirst line mt [], [joinPath base fn], [fn])
    else (line, [], [])

/-- Map the per-line body over every line, concatenating the effect
traces in line order. -/
def ifLines (step : List Char → List Char × List (List Char) × List (List Char)) :
    List (List Char) → List (List Char) × List (List Char) × List (List Char)
  | [] => ([], [], [])
  | x :: xs =>
    let h := step x
    let t := ifLines step xs
    (h.1 :: t.1, h.2.1 ++ t.2.1, h.2.2 ++ t.2.2)

/-- The body of `includeFilesIf` once the two content resolvers are
fixed: early return when no `includeIf(` opener occurs, otherwise split
into lines, resolve each line, and re-join with the document's dominant
line terminator. -/
def ifGo (fs : FileReader) (base : List Char) (vm : VM)
    (inc recur : List Char → Eff) (html : List Char) : Eff :=
  if hasIncIfOpen html then
    let eol := if hasSub html crlfChars then crlfChars else lfChars
    let r := ifLines (ifLineStep fs base vm inc recur) (splitLines html)
    ⟨joinWith eol r.1, r.2.1, r.2.2⟩
  else ⟨html, [], []⟩

/-- `includeFilesIf(html, baseDir, viewModel)`: line-scoped conditional
inclusion.  Fetched content is resolved by the documented pipeline
(conditional blocks, placeholders, unconditional includes, then
conditional includes recursively); the first `Nat` bounds the recursion
depth (at depth 0 the final recursive conditional-include pass is
skipped). -/
def includeFilesIf (fs : FileReader) : Nat → List Char → List Char → VM → Eff
  | 0, html, base, vm =>
    ifGo fs base vm (fun c => includeFiles fs 0 c base) (fun s => ⟨s, [], []⟩) html
  | Nat.succ d, html, base, vm =>
    ifGo fs base vm (fun c => includeFiles fs (Nat.succ d) c base)
      (fun s => includeFilesIf fs d s base vm) html

/-- `renderTemplate(html, viewModel, baseDir)`: the end-to-end pipeline —
conditional blocks, placeholders, unconditional includes, conditional
includes, conditional blocks again, placeholders again; the result is
returned as-is (no minification step). -/
def renderTemplate (fs : FileReader) (depth : Nat)
    (html : List Char) (vm : VM) (base : List Char) : Eff :=
  let h1 := renderIf html vm
  let h2 := replacePlaceholders h1 vm
  let e3 := includeFiles fs depth h2 base
  let e4 := includeFilesIf fs depth e3.out base vm
  let h5 := renderIf e4.out vm
  let h6 := replacePlaceholders h5 vm
  ⟨h6, e3.reads ++ e4.reads, e3.logs ++ e4.logs⟩

/-- Fueled core of `scanPH`. -/
def goScanPH : Nat → List Char → List (List Char × List Char)
  | 0, _ => []
  | Nat.succ f, l =>
    match matchPH l with
    | some (key, n) => (l.take (n + 1), key) :: goScanPH f (l.drop (n + 1))
    | none =>
      match l with
      | [] => []
      | _ :: cs => goScanPH f cs

/-- All matches of the placeholder regex in `l`, as (matched text, key)
pairs, in the order the global replace visits them. -/
def scanPH (l : List Char) : List (List Char × List Char) :=
  goScanPH l.length l

/-- Every placeholder occurrence in `l` has a falsy (or absent) key. -/
def phAllFalsy (vm : VM) (l : List Char) : Bool :=
  (scanPH l).all (fun m => !truthyO (lookupVM vm m.2))

/-- Every conditional-include directive recognised in `html` (first match
per line) has a falsy (or absent) key. -/
def noTruthyIncIf (vm : VM) (html : List Char) : Bool :=
  (splitLines html).all (fun line =>
    match findIncIfLine line with
    | some r => !truthyO (lookupVM vm r.2.1)
    | none => true)

/-- `l` contains no carriage return. -/
def noCR (l : List Char) : Bool :=
  l.all (fun c => !(c == '\r'))

/-- A placeholder marker `<!--` ws `key` ws `-->` with explicit
whitespace runs. -/
def phMarker (ws1 key ws2 : List Char) : List Char :=
  litComOpen ++ ws1 ++ key ++ ws2 ++ litArrow

/-- The canonical opening block marker `<!--renderIf(key);-->`. -/
def roMarker (key : List Char) : List Char :=
  "<!--renderIf(".toList ++ key ++ ");-->".toList

/-- The canonical closing block marker. -/
def endIfM : List Char :=
  "<!--endIf();-->".toList

/-! ## Helper lemmas -/

theorem goRP_nil (vm : VM) (g : Nat) : goRP vm g [] = [] := by
  cases g <;> rfl

theorem goRP_stable (vm : VM) :
    ∀ f g l, l.length ≤ f → l.length ≤ g → goRP vm f l = goRP vm g l := by
  intro f
  induction f with
  | zero =>
    intro g l hf _
    have : l = [] := List.eq_nil_of_length_eq_zero (Nat.le_zero.mp hf)
    subst this
    rw [goRP_nil, goRP_nil]
  | succ f ih =>
    intro g l hf hg
    cases l with
    | nil => rw [goRP_nil, goRP_nil]
    | cons c cs =>
      cases g with
      | zero => simp at hg
      | succ g =>
        simp only [List.length_cons] at hf hg
        cases h : matchPH (c :: cs) with
        | some kn =>
          obtain ⟨key, n⟩ := kn
          have hd : ((c :: cs).drop (n + 1)).length ≤ f := by
            simp only [List.length_drop, List.length_cons]
            omega
          have hd' : ((c :: cs).drop (n + 1)).length ≤ g := by
            simp only [List.length_drop, List.length_cons]
            omega
          simp only [goRP, h]
          rw [ih _ _ hd hd']
        | none =>
          simp only [goRP, h]
          rw [ih g cs (by omega) (by omega)]

theorem replacePlaceholders_nil (vm : VM) : replacePlaceholders [] vm = [] := rfl

theorem replacePlaceholders_cons_none (vm : VM) (c : Char) (cs : List Char)
    (h : matchPH (c :: cs) = none) :
    replacePlaceholders (c :: cs) vm = c :: replacePlaceholders cs vm := by
  show goRP vm (c :: cs).length (c :: cs) = c :: goRP vm cs.length cs
  simp only [List.length_cons, goRP, h]

theorem replacePlaceholders_some (vm : VM) (l : List Char) (key : List Char) (n : Nat)
    (h : matchPH l = some (key, n)) :
    replacePlaceholders l vm =
      (if truthyO (lookupVM vm key) then jsStringO (lookupVM vm key)
       else l.take (n + 1)) ++ replacePlaceholders (l.drop (n + 1)) vm := by
  cases l with
  | nil => simp [matchPH, litComOpen, stripPre] at h
  | cons c cs =>
    show goRP vm (c :: cs).length (c :: cs) = _ ++ goRP vm ((c :: cs).drop (n + 1)).length _
    simp only [List.length_cons, goRP, h]
    congr 1
    exact goRP_stable vm cs.length ((c :: cs).drop (n + 1)).length _
      (by simp only [List.length_drop, List.length_cons]; omega)
      (by simp only [List.length_drop, List.length_cons]; omega)

theorem dropWhile_len_le (p : Char → Bool) : ∀ l : List Char, (l.dropWhile p).length ≤ l.length := by
  intro l
  induction l with
  | nil => simp [List.dropWhile]
  | cons c cs ih =>
    simp only [List.dropWhile]
    cases p c <;> simp
    omega

theorem goRI_nil (vm : VM) (g : Nat) : goRI vm g [] = [] := by
  cases g <;> rfl

theorem goRI_stable (vm : VM) :
    ∀ f g l, l.length ≤ f → l.length ≤ g → goRI vm f l = goRI vm g l := by
  intro f
  induction f with
  | zero =>
    intro g l hf _
    have : l = [] := List.eq_nil_of_length_eq_zero (Nat.le_zero.mp hf)
    subst this
    rw [goRI_nil, goRI_nil]
  | succ f ih =>
    intro g l hf hg
    cases l with
    | nil => rw [goRI_nil, goRI_nil]
    | cons c cs =>
      cases g with
      | zero => simp at hg
      | succ g =>
        simp only [List.length_cons] at hf hg
        cases h1 : matchROpen (c :: cs) with
        | some kn =>
          obtain ⟨key, n1⟩ := kn
          cases h2 : findEndIf ((c :: cs).drop (n1 + 1)) with
          | some cn =>
            obtain ⟨content, n2⟩ := cn
            simp only [goRI, h1, h2]
            rw [ih g (((c :: cs).drop (n1 + 1)).drop (n2 + 1))
              (by simp only [List.length_drop, List.length_cons]; omega)
              (by simp only [List.length_drop, List.length_cons]; omega)]
          | none =>
            simp only [goRI, h1, h2]
            rw [ih g cs (by omega) (by omega)]
        | none =>
          simp only [goRI, h1]
          rw [ih g cs (by omega) (by omega)]

theorem renderIf_nil (vm : VM) : renderIf [] vm = [] := rfl

theorem renderIf_cons_none (vm : VM) (c : Char) (cs : List Char)
    (h : matchROpen (c :: cs) = none) :
    renderIf (c :: cs) vm = c :: renderIf cs vm := by
  show goRI vm (c :: cs).length (c :: cs) = c :: goRI vm cs.length cs
  simp only [List.length_cons, goRI, h]

theorem renderIf_some (vm : VM) (l key content : List Char) (n1 n2 : Nat)
    (h1 : matchROpen l = some (key, n1))
    (h2 : findEndIf (l.drop (n1 + 1)) = some (content, n2)) :
    renderIf l vm =
      (if truthyO (lookupVM vm key) then content else []) ++
        renderIf ((l.drop (n1 + 1)).drop (n2 + 1)) vm := by
  cases l with
  | nil => simp [matchROpen, litComOpen, stripPre] at h1
  | cons c cs =>
    show goRI vm (c :: cs).length (c :: cs) =
      _ ++ goRI vm (((c :: cs).drop (n1 + 1)).drop (n2 + 1)).length _
    simp only [List.length_cons, goRI, h1, h2]
    congr 1
    exact goRI_stable vm cs.length (((c :: cs).drop (n1 + 1)).drop (n2 + 1)).length _
      (by simp only [List.length_drop, List.length_cons]; omega)
      (by simp only [List.length_drop, List.length_cons]; omega)

theorem goSC_nil (g : Nat) : goSC g [] = [] := by
  cases g <;> rfl

theorem goSC_stable :
    ∀ f g l, l.length ≤ f → l.length ≤ g → goSC f l = goSC g l := by
  intro f
  induction f with
  | zero =>
    intro g l hf _
    have : l = [] := List.eq_nil_of_length_eq_zero (Nat.le_zero.mp hf)
    subst this
    rw [goSC_nil, goSC_nil]
  | succ f ih =>
    intro g l hf hg
    cases l with
    | nil => rw [goSC_nil, goSC_nil]
    | cons c cs =>
      cases g with
      | zero => simp at hg
      | succ g =>
        simp only [List.length_cons] at hf hg
        cases h : matchComment (c :: cs) with
        | some n =>
          simp only [goSC, h]
          exact ih g ((c :: cs).drop (n + 1))
            (by simp only [List.length_drop, List.length_cons]; omega)
            (by simp only [List.length_drop, List.length_cons]; omega)
        | none =>
          simp only [goSC, h]
          rw [ih g cs (by omega) (by omega)]

theorem stripComments_nil : stripComments [] = [] := rfl

theorem stripComments_cons_none (c : Char) (cs : List Char)
    (h : matchComment (c :: cs) = none) :
    stripComments (c :: cs) = c :: stripComments cs := by
  show goSC (c :: cs).length (c :: cs) = c :: goSC cs.length cs
  simp only [List.length_cons, goSC, h]

theorem stripComments_some (l : List Char) (n : Nat)
    (h : matchComment l = some n) :
    stripComments l = stripComments (l.drop (n + 1)) := by
  cases l with
  | nil => simp [matchComment, litComOpen, begWith] at h
  | cons c cs =>
    show goSC (c :: cs).length (c :: cs) = goSC ((c :: cs).drop (n + 1)).length _
    simp only [List.length_cons, goSC, h]
    exact goSC_stable cs.length ((c :: cs).drop (n + 1)).length _
      (by simp only [List.length_drop, List.length_cons]; omega)
      (by simp only [List.length_drop, List.length_cons]; omega)

theorem goWC_nil (g : Nat) : goWC g [] = [] := by
  cases g <;> rfl

theorem goWC_stable :
    ∀ f g l, l.length ≤ f → l.length ≤ g → goWC f l = goWC g l := by
  intro f
  induction f with
  | zero =>
    intro g l hf _
    have : l = [] := List.eq_nil_of_length_eq_zero (Nat.le_zero.mp hf)
    subst this
    rw [goWC_nil, goWC_nil]
  | succ f ih =>
    intro g l hf hg
    cases l with
    | nil => rw [goWC_nil, goWC_nil]
    | cons c cs =>
      cases g with
      | zero => simp at hg
      | succ g =>
        simp only [List.length_cons] at hf hg
        by_cases hw : isWs c = true
        · simp only [goWC, if_pos hw]
          have hl := dropWhile_len_le isWs cs
          rw [ih g (cs.dropWhile isWs) (by omega) (by omega)]
        · simp only [goWC, if_neg hw]
          rw [ih g cs (by omega) (by omega)]

theorem wsCollapse_nil : wsCollapse [] = [] := rfl

theorem wsCollapse_cons (c : Char) (cs : List Char) :
    wsCollapse (c :: cs) =
      if isWs c then ' ' :: wsCollapse (cs.dropWhile isWs) else c :: wsCollapse cs := by
  show goWC (c :: cs).length (c :: cs) = _
  by_cases hw : isWs c = true
  · simp only [List.length_cons, goWC, if_pos hw]
    have hl := dropWhile_len_le isWs cs
    rw [goWC_stable cs.length (cs.dropWhile isWs).length (cs.dropWhile isWs) (by omega) (by omega)]
    rfl
  · simp only [List.length_cons, goWC, if_neg hw]
    rfl

theorem goScan_nil (g : Nat) : goScan g [] = [] := by
  cases g <;> rfl

theorem goScan_stable :
    ∀ f g l, l.length ≤ f → l.length ≤ g → goScan f l = goScan g l := by
  intro f
  induction f with
  | zero =>
    intro g l hf _
    have : l = [] := List.eq_nil_of_length_eq_zero (Nat.le_zero.mp hf)
    subst this
    rw [goScan_nil, goScan_nil]
  | succ f ih =>
    intro g l hf hg
    cases l with
    | nil => rw [goScan_nil, goScan_nil]
    | cons c cs =>
      cases g with
      | zero => simp at hg
      | succ g =>
        simp only [List.length_cons] at hf hg
        cases h : matchInc (c :: cs) with
        | some fn =>
          obtain ⟨f0, n⟩ := fn
          simp only [goScan, h]
          rw [ih g ((c :: cs).drop (n + 1))
            (by simp only [List.length_drop, List.length_cons]; omega)
            (by simp only [List.length_drop, List.length_cons]; omega)]
        | none =>
          simp only [goScan, h]
          rw [ih g cs (by omega) (by omega)]

theorem scanIncludes_nil : scanIncludes [] = [] := rfl

theorem scanIncludes_cons_none (c : Char) (cs : List Char)
    (h : matchInc (c :: cs) = none) :
    scanIncludes (c :: cs) = scanIncludes cs := by
  show goScan (c :: cs).length (c :: cs) = goScan cs.length cs
  simp only [List.length_cons, goScan, h]

theorem scanIncludes_some (l fn : List Char) (n : Nat)
    (h : matchInc l = some (fn, n)) :
    scanIncludes l = (l.take (n + 1), fn) :: scanIncludes (l.drop (n + 1)) := by
  cases l with
  | nil => simp [matchInc, litComOpen, stripPre] at h
  | cons c cs =>
    show goScan (c :: cs).length (c :: cs) = _ :: goScan ((c :: cs).drop (n + 1)).length _
    simp only [List.length_cons, goScan, h]
    rw [goScan_stable cs.length ((c :: cs).drop (n + 1)).length _
      (by simp only [List.length_drop, List.length_cons]; omega)
      (by simp only [List.length_drop, List.length_cons]; omega)]

theorem goScanPH_nil (g : Nat) : goScanPH g [] = [] := by
  cases g <;> rfl

theorem goScanPH_stable :
    ∀ f g l, l.length ≤ f → l.length ≤ g → goScanPH f l = goScanPH g l := by
  intro f
  induction f with
  | zero =>
    intro g l hf _
    have : l = [] := List.eq_nil_of_length_eq_zero (Nat.le_zero.mp hf)
    subst this
    rw [goScanPH_nil, goScanPH_nil]
  | succ f ih =>
    intro g l hf hg
    cases l with
    | nil => rw [goScanPH_nil, goScanPH_nil]
    | cons c cs =>
      cases g with
      | zero => simp at hg
      | succ g =>
        simp only [List.length_cons] at hf hg
        cases h : matchPH (c :: cs) with
        | some kn =>
          obtain ⟨key, n⟩ := kn
          simp only [goScanPH, h]
          rw [ih g ((c :: cs).drop (n + 1))
            (by simp only [List.length_drop, List.length_cons]; omega)
            (by simp only [List.length_drop, List.length_cons]; omega)]
        | none =>
          simp only [goScanPH, h]
          rw [ih g cs (by omega) (by omega)]

theorem scanPH_nil : scanPH [] = [] := rfl

theorem scanPH_cons_none (c : Char) (cs : List Char)
    (h : matchPH (c :: cs) = none) :
    scanPH (c :: cs) = scanPH cs := by
  show goScanPH (c :: cs).length (c :: cs) = goScanPH cs.length cs
  simp only [List.length_cons, goScanPH, h]

theorem scanPH_some (l key : List Char) (n : Nat)
    (h : matchPH l = some (key, n)) :
    scanPH l = (l.take (n + 1), key) :: scanPH (l.drop (n + 1)) := by
  cases l with
  | nil => simp [matchPH, litComOpen, stripPre] at h
  | cons c cs =>
    show goScanPH (c :: cs).length (c :: cs) = _ :: goScanPH ((c :: cs).drop (n + 1)).length _
    simp only [List.length_cons, goScanPH, h]
    rw [goScanPH_stable cs.length ((c :: cs).drop (n + 1)).length _
      (by simp only [List.length_drop, List.length_cons]; omega)
      (by simp only [List.length_drop, List.length_cons]; omega)]


theorem litComOpen_chars : litComOpen = ['<', '!', '-', '-'] := rfl

theorem litArrow_chars : litArrow = ['-', '-', '>'] := rfl

theorem beqc_symm_false {c d : Char} (h : (c == d) = false) : (d == c) = false := by
  cases hq : (d == c) with
  | false => rfl
  | true =>
    have : d = c := eq_of_beq hq
    subst this
    simp at h

theorem ws_not_word (c : Char) (h : isWs c = true) : isWordChar c = false := by
  simp only [isWs, Bool.or_eq_true, beq_iff_eq] at h
  rcases h with ((((h | h) | h) | h) | h) | h <;> subst h <;> decide

theorem word_not_ws (c : Char) (h : isWordChar c = true) : isWs c = false := by
  cases hq : isWs c with
  | false => rfl
  | true =>
    rw [ws_not_word c hq] at h
    simp at h

theorem dropWhile_app_all (p : Char → Bool) (a b : List Char) (h : a.all p = true) :
    List.dropWhile p (a ++ b) = List.dropWhile p b := by
  induction a with
  | nil => rfl
  | cons x xs ih =>
    simp only [List.all_cons, Bool.and_eq_true] at h
    simp only [List.cons_append, List.dropWhile, h.1]
    exact ih h.2

theorem takeWhile_app_head_false (p : Char → Bool) (a : List Char) (d : Char) (b : List Char)
    (ha : a.all p = true) (hd : p d = false) :
    List.takeWhile p (a ++ d :: b) = a := by
  induction a with
  | nil => simp [List.takeWhile, hd]
  | cons x xs ih =>
    simp only [List.all_cons, Bool.and_eq_true] at ha
    simp only [List.cons_append, List.takeWhile, ha.1, List.append_eq]
    rw [ih ha.2]

theorem dropWhile_app_head_false (p : Char → Bool) (a : List Char) (d : Char) (b : List Char)
    (ha : a.all p = true) (hd : p d = false) :
    List.dropWhile p (a ++ d :: b) = d :: b := by
  rw [dropWhile_app_all p a (d :: b) ha]
  simp [List.dropWhile, hd]

theorem stripPre_app : ∀ p t : List Char, stripPre p (p ++ t) = some t := by
  intro p
  induction p with
  | nil => intro t; rfl
  | cons x xs ih => intro t; simp [stripPre, ih t]

theorem matchPH_not_lt (c : Char) (cs : List Char) (h : (c == '<') = false) :
    matchPH (c :: cs) = none := by
  have h' : ('<' == c) = false := beqc_symm_false h
  simp [matchPH, litComOpen_chars, stripPre, h']

theorem matchPH_marker (ws1 key ws2 post : List Char)
    (h1 : ws1.all isWs = true) (h2 : ws2.all isWs = true)
    (hk : key ≠ []) (hw : key.all isWordChar = true) :
    matchPH (phMarker ws1 key ws2 ++ post) =
      some (key, (phMarker ws1 key ws2).length - 1) := by
  cases key with
  | nil => exact absurd rfl hk
  | cons k0 ks =>
    have hk0 : isWordChar k0 = true := by
      simp only [List.all_cons, Bool.and_eq_true] at hw
      exact hw.1
    have hk0ws : isWs k0 = false := word_not_ws k0 hk0
    obtain ⟨d, b, hb, hdv⟩ :
        ∃ d b, ws2 ++ (litArrow ++ post) = d :: b ∧ isWordChar d = false := by
      cases ws2 with
      | nil => exact ⟨'-', ['-', '>'] ++ post, by simp [litArrow_chars], by decide⟩
      | cons w ws' =>
        have hww : isWs w = true := by
          simp only [List.all_cons, Bool.and_eq_true] at h2
          exact h2.1
        exact ⟨w, ws' ++ (litArrow ++ post), rfl, ws_not_word w hww⟩
    have harr : List.dropWhile isWs (ws2 ++ (litArrow ++ post)) = litArrow ++ post := by
      rw [dropWhile_app_all isWs ws2 _ h2, litArrow_chars]
      simp [List.dropWhile_cons, show isWs '-' = false from by decide]
    unfold matchPH
    simp only [phMarker, List.append_assoc, List.cons_append]
    rw [stripPre_app]
    simp only [Option.bind_eq_bind, Option.some_bind]
    rw [dropWhile_app_all isWs ws1 _ h1]
    simp only [List.dropWhile_cons, hk0ws, Bool.false_eq_true, if_false]
    rw [if_pos hk0]
    have hwks : ks.all isWordChar = true := by
      simp only [List.all_cons, Bool.and_eq_true] at hw
      exact hw.2
    have hsplit : k0 :: (ks ++ (ws2 ++ (litArrow ++ post))) = (k0 :: ks) ++ (d :: b) := by
      rw [hb]
      simp [List.cons_append]
    have hsplit2 : ks ++ (ws2 ++ (litArrow ++ post)) = ks ++ (d :: b) := by
      rw [hb]
    rw [hsplit, hsplit2]
    rw [takeWhile_app_head_false isWordChar (k0 :: ks) d b hw hdv]
    rw [dropWhile_app_head_false isWordChar ks d b hwks hdv]
    rw [← hb, harr, stripPre_app]
    have hlen : (d :: b).length = ws2.length + (3 + post.length) := by
      rw [← hb]
      simp [List.length_append, litArrow_chars]
      omega
    simp only [List.isEmpty_cons, Bool.false_eq_true, if_false, Option.some_bind,
      Option.some.injEq, Prod.mk.injEq, Option.bind_eq_bind]
    constructor
    · trivial
    · simp only [List.length_append, List.length_cons, litArrow_chars, litComOpen_chars,
        List.length_nil] at *
      omega

theorem replacePlaceholders_app_clean (vm : VM) (pre rest : List Char)
    (h : pre.all (fun c => !(c == '<')) = true) :
    replacePlaceholders (pre ++ rest) vm = pre ++ replacePlaceholders rest vm := by
  induction pre with
  | nil => simp
  | cons c cs ih =>
    simp only [List.all_cons, Bool.and_eq_true] at h
    obtain ⟨ha, h2⟩ := h
    have h1 : (c == '<') = false := by
      revert ha
      cases (c == '<') <;> simp
    rw [List.cons_append, replacePlaceholders_cons_none vm c (cs ++ rest) (matchPH_not_lt c _ h1),
      ih h2, List.cons_append]

/-- C6: `replacePlaceholders` substitutes `String(value)` for every
placeholder occurrence whose key maps to a truthy value, leaves an
occurrence with an absent or falsy key byte-for-byte unchanged (comment
markers included), and leaves the surrounding text unchanged. -/
theorem c6_replace_placeholders (vm : VM) (pre ws1 key ws2 post : List Char)
    (hpre : pre.all (fun c => !(c == '<')) = true)
    (h1 : ws1.all isWs = true) (h2 : ws2.all isWs = true)
    (hk : key ≠ []) (hw : key.all isWordChar = true) :
    replacePlaceholders (pre ++ (phMarker ws1 key ws2 ++ post)) vm =
      pre ++ ((if truthyO (lookupVM vm key) then jsStringO (lookupVM vm key)
               else phMarker ws1 key ws2) ++ replacePlaceholders post vm) := by
  rw [replacePlaceholders_app_clean vm pre _ hpre]
  congr 1
  have hm := matchPH_marker ws1 key ws2 post h1 h2 hk hw
  rw [replacePlaceholders_some vm _ key _ hm]
  have hlen : 1 ≤ (phMarker ws1 key ws2).length := by
    simp [phMarker, litComOpen_chars, List.length_append]
  rw [Nat.sub_add_cancel hlen, List.take_left, List.drop_left]

/-- Witness for C6 at a concrete truthy instance. -/
theorem c6_replace_placeholders_witness :
    replacePlaceholders ("Title: <!-- title -->!".toList)
        [("title".toList, JsVal.str ("Hello".toList))] = "Title: Hello!".toList := by
  have h := c6_replace_placeholders [("title".toList, JsVal.str ("Hello".toList))]
    ("Title: ".toList) [' '] ("title".toList) [' '] ("!".toList)
    (by decide) (by decide) (by decide) (by decide) (by decide)
  exact h

theorem litRenderIfP_chars : litRenderIfP = ['r', 'e', 'n', 'd', 'e', 'r', 'I', 'f', '('] := rfl

theorem roMarker_decomp (key rest : List Char) :
    roMarker key ++ rest =
      litComOpen ++ (litRenderIfP ++ (key ++ (')' :: ';' :: (litArrow ++ rest)))) := by
  simp only [roMarker, show "<!--renderIf(".toList = litComOpen ++ litRenderIfP from rfl,
    show ");-->".toList = ')' :: ';' :: litArrow from rfl, List.append_assoc, List.cons_append]

theorem matchROpen_not_lt (c : Char) (cs : List Char) (h : (c == '<') = false) :
    matchROpen (c :: cs) = none := by
  have h' : ('<' == c) = false := beqc_symm_false h
  simp [matchROpen, litComOpen_chars, stripPre, h']

theorem matchROpen_marker (key rest : List Char)
    (hk : key ≠ []) (hnp : key.all (fun c => !(c == ')')) = true) :
    matchROpen (roMarker key ++ rest) = some (key, (roMarker key).length - 1) := by
  have hdw : List.dropWhile isWs (litRenderIfP ++ (key ++ (')' :: ';' :: (litArrow ++ rest)))) =
      litRenderIfP ++ (key ++ (')' :: ';' :: (litArrow ++ rest))) := by
    rw [litRenderIfP_chars]
    simp [List.cons_append, List.dropWhile_cons, show isWs 'r' = false from by decide]
  have hpr : ((fun c => !(c == ')')) ')') = false := by decide
  have harr : List.dropWhile isWs (litArrow ++ rest) = litArrow ++ rest := by
    rw [litArrow_chars]
    simp [List.cons_append, List.dropWhile_cons, show isWs '-' = false from by decide]
  rw [roMarker_decomp]
  unfold matchROpen
  rw [stripPre_app]
  simp only [Option.bind_eq_bind, Option.some_bind]
  rw [hdw, stripPre_app]
  simp only [Option.bind_eq_bind, Option.some_bind]
  rw [show key ++ (')' :: ';' :: (litArrow ++ rest)) = key ++ (')' :: (';' :: (litArrow ++ rest)))
      from rfl]
  rw [takeWhile_app_head_false (fun c => !(c == ')')) key ')' (';' :: (litArrow ++ rest)) hnp hpr]
  rw [dropWhile_app_head_false (fun c => !(c == ')')) key ')' (';' :: (litArrow ++ rest)) hnp hpr]
  rw [show (')' :: (';' :: (litArrow ++ rest))) = [')'] ++ (';' :: (litArrow ++ rest)) from rfl,
    stripPre_app]
  simp only [Option.bind_eq_bind, Option.some_bind]
  rw [show stripSemi (';' :: (litArrow ++ rest)) = litArrow ++ rest from by
    simp [stripSemi]]
  rw [harr, stripPre_app]
  cases key with
  | nil => exact absurd rfl hk
  | cons k0 ks =>
    simp only [List.isEmpty_cons, Bool.false_eq_true, if_false, Option.some_bind,
      Option.some.injEq, Prod.mk.injEq, Option.bind_eq_bind]
    constructor
    · trivial
    · simp only [roMarker, List.length_append, List.length_cons, litComOpen_chars,
        litRenderIfP_chars, litArrow_chars, List.length_nil,
        show ("<!--renderIf(".toList).length = 13 from rfl,
        show (");-->".toList).length = 5 from rfl]
      omega

theorem renderIf_app_clean (vm : VM) (pre rest : List Char)
    (h : pre.all (fun c => !(c == '<')) = true) :
    renderIf (pre ++ rest) vm = pre ++ renderIf rest vm := by
  induction pre with
  | nil => simp
  | cons c cs ih =>
    simp only [List.all_cons, Bool.and_eq_true] at h
    obtain ⟨ha, h2⟩ := h
    have h1 : (c == '<') = false := by
      revert ha
      cases (c == '<') <;> simp
    rw [List.cons_append, renderIf_cons_none vm c (cs ++ rest) (matchROpen_not_lt c _ h1),
      ih h2, List.cons_append]

/-- C8: `renderIf` replaces each block — the pair formed by matching the
opening marker to the nearest following closing marker, so consecutive
pairs resolve independently — with the inner content verbatim when the
key is truthy and with the empty string when it is absent or falsy. -/
theorem c8_render_if (vm : VM) (pre key X post : List Char)
    (hpre : pre.all (fun c => !(c == '<')) = true)
    (hk : key ≠ []) (hnp : key.all (fun c => !(c == ')')) = true)
    (hfind : findEndIf (X ++ (endIfM ++ post)) = some (X, (X ++ endIfM).length - 1)) :
    renderIf (pre ++ (roMarker key ++ (X ++ (endIfM ++ post)))) vm =
      pre ++ ((if truthyO (lookupVM vm key) then X else []) ++ renderIf post vm) := by
  rw [renderIf_app_clean vm pre _ hpre]
  congr 1
  have hm := matchROpen_marker key (X ++ (endIfM ++ post)) hk hnp
  have h1 : 1 ≤ (roMarker key).length := by
    simp [roMarker, List.length_append, show ("<!--renderIf(".toList).length = 13 from rfl]
  have hd1 : (roMarker key ++ (X ++ (endIfM ++ post))).drop (((roMarker key).length - 1) + 1) =
      X ++ (endIfM ++ post) := by
    rw [Nat.sub_add_cancel h1, List.drop_left]
  have h2 : 1 ≤ (X ++ endIfM).length := by
    simp [List.length_append, show (endIfM).length = 15 from rfl]
  have hd2 : (X ++ (endIfM ++ post)).drop (((X ++ endIfM).length - 1) + 1) = post := by
    rw [Nat.sub_add_cancel h2, ← List.append_assoc, List.drop_left]
  have hs := renderIf_some vm (roMarker key ++ (X ++ (endIfM ++ post))) key X
    ((roMarker key).length - 1) ((X ++ endIfM).length - 1) hm (by rw [hd1]; exact hfind)
  rw [hs, hd1, hd2]

/-- Witness for C8 at the concrete instance named by the specification. -/
theorem c8_render_if_witness :
    renderIf ("<!--renderIf(key);-->X<!--endIf();-->".toList)
        [("key".toList, JsVal.bool true)] = "X".toList := by
  have h := c8_render_if [("key".toList, JsVal.bool true)] [] ("key".toList) ['X'] []
    (by decide) (by decide) (by decide) (by decide)
  exact h

theorem matchPH_nil : matchPH [] = none := rfl

theorem replacePlaceholders_id_of_falsy (vm : VM) :
    ∀ n l, l.length ≤ n → phAllFalsy vm l = true → replacePlaceholders l vm = l := by
  intro n
  induction n with
  | zero =>
    intro l hl _
    have : l = [] := List.eq_nil_of_length_eq_zero (Nat.le_zero.mp hl)
    subst this
    rfl
  | succ n ih =>
    intro l hl hf
    cases h : matchPH l with
    | none =>
      cases l with
      | nil => rfl
      | cons c cs =>
        have hf' : phAllFalsy vm cs = true := by
          unfold phAllFalsy at hf ⊢
          rw [scanPH_cons_none c cs h] at hf
          exact hf
        simp only [List.length_cons] at hl
        rw [replacePlaceholders_cons_none vm c cs h, ih cs (by omega) hf']
    | some kn =>
      obtain ⟨key, k⟩ := kn
      have hne : l ≠ [] := by
        intro he
        rw [he, matchPH_nil] at h
        exact Option.noConfusion h
      have hlpos : 1 ≤ l.length := by
        cases l with
        | nil => exact absurd rfl hne
        | cons c cs => simp
      unfold phAllFalsy at hf
      rw [scanPH_some l key k h] at hf
      simp only [List.all_cons, Bool.and_eq_true] at hf
      have hfal : truthyO (lookupVM vm key) = false := by
        revert hf
        cases truthyO (lookupVM vm key) <;> simp
      rw [replacePlaceholders_some vm l key k h, hfal]
      simp only [Bool.false_eq_true, if_false]
      rw [ih (l.drop (k + 1)) (by simp only [List.length_drop]; omega) hf.2]
      exact List.take_append_drop (k + 1) l

/-- C7 counterexample: the claimed idempotence fails when a substituted
value itself contains a placeholder marker — the second pass resolves the
marker introduced by the first. -/
theorem c7_counterexample :
    replacePlaceholders
        (replacePlaceholders ("<!-- a -->".toList)
          [("a".toList, JsVal.str ("<!-- b -->".toList)), ("b".toList, JsVal.str ("X".toList))])
        [("a".toList, JsVal.str ("<!-- b -->".toList)), ("b".toList, JsVal.str ("X".toList))] ≠
      replacePlaceholders ("<!-- a -->".toList)
        [("a".toList, JsVal.str ("<!-- b -->".toList)), ("b".toList, JsVal.str ("X".toList))] := by
  decide

/-- C7 amended: `replacePlaceholders` is idempotent on every input whose
first-pass output contains no placeholder occurrence with a truthy key —
in particular whenever no substituted value re-introduces a marker (the
situation the claim's own rationale assumes). -/
theorem c7_amended (vm : VM) (s : List Char)
    (h : phAllFalsy vm (replacePlaceholders s vm) = true) :
    replacePlaceholders (replacePlaceholders s vm) vm = replacePlaceholders s vm :=
  replacePlaceholders_id_of_falsy vm (replacePlaceholders s vm).length
    (replacePlaceholders s vm) le_rfl h

/-- Witness for C7's amended statement. -/
theorem c7_amended_witness :
    replacePlaceholders
        (replacePlaceholders ("<h1><!-- t --></h1><!-- z -->".toList)
          [("t".toList, JsVal.str ("Hi".toList))])
        [("t".toList, JsVal.str ("Hi".toList))] =
      replacePlaceholders ("<h1><!-- t --></h1><!-- z -->".toList)
        [("t".toList, JsVal.str ("Hi".toList))] :=
  c7_amended [("t".toList, JsVal.str ("Hi".toList))] ("<h1><!-- t --></h1><!-- z -->".toList)
    (by decide)

theorem begWith_nonws_of_collapse (p : List Char) (hp : p.all (fun c => !(isWs c)) = true) :
    ∀ l, begWith p (wsCollapse l) = true → begWith p l = true := by
  induction p with
  | nil => intro l _; rfl
  | cons q qs ih =>
    intro l h
    simp only [List.all_cons, Bool.and_eq_true] at hp
    have hq : isWs q = false := by
      revert hp
      cases isWs q <;> simp
    cases l with
    | nil => rw [wsCollapse_nil] at h; exact h
    | cons d ds =>
      rw [wsCollapse_cons] at h
      by_cases hw : isWs d = true
      · rw [if_pos hw] at h
        simp only [begWith, Bool.and_eq_true, beq_iff_eq] at h
        rw [h.1] at hq
        simp [isWs] at hq
      · rw [if_neg hw] at h
        simp only [begWith, Bool.and_eq_true] at h ⊢
        exact ⟨h.1, ih hp.2 ds h.2⟩

theorem hasSub_dropWhile (p : Char → Bool) (pat : List Char) :
    ∀ l, hasSub l pat = false → hasSub (l.dropWhile p) pat = false := by
  intro l
  induction l with
  | nil => intro h; exact h
  | cons c cs ih =>
    intro h
    simp only [hasSub, Bool.or_eq_false_iff] at h
    simp only [List.dropWhile]
    cases hp : p c with
    | true => exact ih h.2
    | false => simp only [hasSub, Bool.or_eq_false_iff]; exact h

theorem collapse_preserves_noOpen :
    ∀ n l, l.length ≤ n → hasSub l litComOpen = false →
      hasSub (wsCollapse l) litComOpen = false := by
  intro n
  induction n with
  | zero =>
    intro l hl _
    have : l = [] := List.eq_nil_of_length_eq_zero (Nat.le_zero.mp hl)
    subst this
    rfl
  | succ n ih =>
    intro l hl h
    cases l with
    | nil => exact h
    | cons d ds =>
      simp only [List.length_cons] at hl
      simp only [hasSub, Bool.or_eq_false_iff] at h
      rw [wsCollapse_cons]
      by_cases hw : isWs d = true
      · rw [if_pos hw]
        simp only [hasSub, Bool.or_eq_false_iff]
        constructor
        · rw [litComOpen_chars]
          simp only [begWith, show ('<' == ' ') = false from by decide, Bool.false_and]
        · have hd := dropWhile_len_le isWs ds
          exact ih (ds.dropWhile isWs) (by omega) (hasSub_dropWhile isWs litComOpen ds h.2)
      · rw [if_neg hw]
        simp only [hasSub, Bool.or_eq_false_iff]
        constructor
        · cases hb : begWith litComOpen (d :: wsCollapse ds) with
          | false => rfl
          | true =>
            have hcollapse : d :: wsCollapse ds = wsCollapse (d :: ds) := by
              rw [wsCollapse_cons, if_neg hw]
            rw [hcollapse] at hb
            have := begWith_nonws_of_collapse litComOpen (by rw [litComOpen_chars]; decide)
              (d :: ds) hb
            rw [this] at h
            exact absurd h.1 (by simp)
        · exact ih ds (by omega) h.2

theorem stripComments_id_of_noOpen :
    ∀ n l, l.length ≤ n → hasSub l litComOpen = false → stripComments l = l := by
  intro n
  induction n with
  | zero =>
    intro l hl _
    have : l = [] := List.eq_nil_of_length_eq_zero (Nat.le_zero.mp hl)
    subst this
    rfl
  | succ n ih =>
    intro l hl h
    cases l with
    | nil => rfl
    | cons c cs =>
      simp only [List.length_cons] at hl
      simp only [hasSub, Bool.or_eq_false_iff] at h
      have hm : matchComment (c :: cs) = none := by
        unfold matchComment
        rw [h.1]
        simp
      rw [stripComments_cons_none c cs hm, ih cs (by omega) h.2]

theorem dropWhile_head_false (p : Char → Bool) :
    ∀ l d r, List.dropWhile p l = d :: r → p d = false := by
  intro l
  induction l with
  | nil => intro d r h; exact absurd h (by simp [List.dropWhile])
  | cons c cs ih =>
    intro d r h
    simp only [List.dropWhile] at h
    cases hp : p c with
    | true => rw [hp] at h; exact ih d r h
    | false =>
      rw [hp] at h
      cases h
      exact hp

theorem wsCollapse_idem :
    ∀ n l, l.length ≤ n → wsCollapse (wsCollapse l) = wsCollapse l := by
  intro n
  induction n with
  | zero =>
    intro l hl
    have : l = [] := List.eq_nil_of_length_eq_zero (Nat.le_zero.mp hl)
    subst this
    rfl
  | succ n ih =>
    intro l hl
    cases l with
    | nil => rfl
    | cons d ds =>
      simp only [List.length_cons] at hl
      rw [wsCollapse_cons]
      by_cases hw : isWs d = true
      · rw [if_pos hw]
        rw [wsCollapse_cons, if_pos (by decide : isWs ' ' = true)]
        have hdw : List.dropWhile isWs (wsCollapse (ds.dropWhile isWs)) =
            wsCollapse (ds.dropWhile isWs) := by
          cases ht : ds.dropWhile isWs with
          | nil => rw [wsCollapse_nil]; rfl
          | cons f fs =>
            have hf : isWs f = false := dropWhile_head_false isWs ds f fs ht
            rw [wsCollapse_cons, if_neg (by rw [hf]; simp)]
            simp [List.dropWhile_cons, hf]
        rw [hdw]
        have hd := dropWhile_len_le isWs ds
        rw [ih (ds.dropWhile isWs) (by omega)]
      · rw [if_neg hw]
        rw [wsCollapse_cons, if_neg hw]
        rw [ih ds (by omega)]

/-- C5 counterexample: `minifyHtml` is not idempotent — removing a
comment can join the two single spaces around it into a run of two,
which a second pass collapses further. -/
theorem c5_counterexample :
    minifyHtml (minifyHtml (" <!--x--> ".toList)) ≠ minifyHtml (" <!--x--> ".toList) := by
  decide

/-- C5 amended: `minifyHtml` is idempotent on every input containing no
comment opener `<!--` (comment removal is what breaks idempotence). -/
theorem c5_amended (s : List Char) (h : hasSub s litComOpen = false) :
    minifyHtml (minifyHtml s) = minifyHtml s := by
  have hC : hasSub (wsCollapse s) litComOpen = false :=
    collapse_preserves_noOpen s.length s le_rfl h
  have e1 : minifyHtml s = wsCollapse s := by
    unfold minifyHtml
    exact stripComments_id_of_noOpen (wsCollapse s).length (wsCollapse s) le_rfl hC
  rw [e1]
  unfold minifyHtml
  rw [wsCollapse_idem s.length s le_rfl]
  exact stripComments_id_of_noOpen (wsCollapse s).length (wsCollapse s) le_rfl hC

/-- Witness for C5's amended statement. -/
theorem c5_amended_witness :
    minifyHtml (minifyHtml ("a   b".toList)) = minifyHtml ("a   b".toList) :=
  c5_amended ("a   b".toList) (by decide)

/-- C10: `minifyHtml` never trims — on a comment-free input starting with
whitespace the output starts with exactly one space (a single space
followed by a non-whitespace character, when one remains), and on the
specification's example the leading and trailing runs each become one
space rather than being removed. -/
theorem c10_minify_no_trim :
    (∀ c cs, isWs c = true → hasSub (c :: cs) litComOpen = false →
      minifyHtml (c :: cs) = ' ' :: wsCollapse (cs.dropWhile isWs) ∧
      (∀ d ds, wsCollapse (cs.dropWhile isWs) = d :: ds → isWs d = false)) ∧
    minifyHtml ("  <div>x</div>  ".toList) = " <div>x</div> ".toList := by
  constructor
  · intro c cs hc hno
    have hC : hasSub (wsCollapse (c :: cs)) litComOpen = false :=
      collapse_preserves_noOpen (c :: cs).length (c :: cs) le_rfl hno
    constructor
    · unfold minifyHtml
      rw [stripComments_id_of_noOpen (wsCollapse (c :: cs)).length _ le_rfl hC]
      rw [wsCollapse_cons, if_pos hc]
    · intro d ds hd
      cases ht : cs.dropWhile isWs with
      | nil => rw [ht, wsCollapse_nil] at hd; exact absurd hd (by simp)
      | cons f fs =>
        have hf : isWs f = false := dropWhile_head_false isWs cs f fs ht
        rw [ht, wsCollapse_cons, if_neg (by rw [hf]; simp)] at hd
        cases hd
        exact hf
  · decide

/-- Witness for C10's universal part at a concrete input. -/
theorem c10_minify_no_trim_witness :
    minifyHtml ((' ' :: "a".toList)) = ' ' :: wsCollapse (("a".toList).dropWhile isWs) :=
  (c10_minify_no_trim.1 ' ' ("a".toList) (by decide) (by decide)).1

theorem noCR_no_crlf (html : List Char) (h : noCR html = true) :
    hasSub html crlfChars = false := by
  induction html with
  | nil => rfl
  | cons c cs ih =>
    simp only [noCR, List.all_cons, Bool.and_eq_true] at h
    have hc : (c == '\r') = false := by
      revert h
      cases (c == '\r') <;> simp
    have hcs : noCR cs = true := h.2
    simp only [hasSub, Bool.or_eq_false_iff]
    constructor
    · simp only [crlfChars, begWith, beqc_symm_false hc, Bool.false_and]
    · exact ih hcs

theorem splitLines_ne_nil : ∀ l : List Char, splitLines l ≠ [] := by
  intro l
  cases l with
  | nil => simp [splitLines]
  | cons c cs =>
    cases cs with
    | nil =>
      simp only [splitLines]
      split <;> simp
    | cons d ds =>
      simp only [splitLines]
      split
      · simp
      · split
        · simp
        · split <;> simp

theorem joinWith_cons_head (sep : List Char) (c : Char) (l : List Char) (ls : List (List Char)) :
    joinWith sep ((c :: l) :: ls) = c :: joinWith sep (l :: ls) := by
  cases ls with
  | nil => rfl
  | cons y ys => simp [joinWith, List.cons_append]

theorem joinWith_nil_head (sep : List Char) (l : List Char) (ls : List (List Char)) :
    joinWith sep ([] :: l :: ls) = sep ++ joinWith sep (l :: ls) := rfl

theorem split_join_LF :
    ∀ n html, html.length ≤ n → noCR html = true →
      joinWith lfChars (splitLines html) = html := by
  intro n
  induction n with
  | zero =>
    intro html hl _
    have : html = [] := List.eq_nil_of_length_eq_zero (Nat.le_zero.mp hl)
    subst this
    rfl
  | succ n ih =>
    intro html hl hcr
    cases html with
    | nil => rfl
    | cons c cs =>
      simp only [List.length_cons] at hl
      simp only [noCR, List.all_cons, Bool.and_eq_true] at hcr
      have hcR : (c == '\r') = false := by
        revert hcr
        cases (c == '\r') <;> simp
      have hcs : noCR cs = true := hcr.2
      cases cs with
      | nil =>
        simp only [splitLines]
        by_cases hn : (c == '\n') = true
        · rw [if_pos hn]
          have : c = '\n' := eq_of_beq hn
          subst this
          rfl
        · rw [if_neg hn]
          rfl
      | cons d ds =>
        simp only [List.length_cons] at hl
        simp only [splitLines]
        by_cases hn : (c == '\n') = true
        · rw [if_pos hn]
          have hc' : c = '\n' := eq_of_beq hn
          subst hc'
          obtain ⟨l, ls, hds⟩ :
              ∃ l ls, splitLines (d :: ds) = l :: ls := by
            cases hq : splitLines (d :: ds) with
            | nil => exact absurd hq (splitLines_ne_nil (d :: ds))
            | cons l ls => exact ⟨l, ls, rfl⟩
          rw [hds, joinWith_nil_head, ← hds, ih (d :: ds) (by simp; omega) hcs]
          rfl
        · rw [if_neg hn]
          have hrn : (c == '\r' && d == '\n') = false := by
            rw [hcR]
            rfl
          rw [hrn]
          simp only [Bool.false_eq_true, if_false]
          obtain ⟨l, ls, hds⟩ :
              ∃ l ls, splitLines (d :: ds) = l :: ls := by
            cases hq : splitLines (d :: ds) with
            | nil => exact absurd hq (splitLines_ne_nil (d :: ds))
            | cons l ls => exact ⟨l, ls, rfl⟩
          rw [hds]
          rw [joinWith_cons_head, ← hds, ih (d :: ds) (by simp; omega) hcs]

theorem ifLines_id (fs : FileReader) (base : List Char) (vm : VM)
    (inc recur : List Char → Eff) (lines : List (List Char))
    (h : lines.all (fun line =>
        match findIncIfLine line with
        | some r => !truthyO (lookupVM vm r.2.1)
        | none => true) = true) :
    ifLines (ifLineStep fs base vm inc recur) lines = (lines, [], []) := by
  induction lines with
  | nil => rfl
  | cons x xs ih =>
    simp only [List.all_cons, Bool.and_eq_true] at h
    have hx := h.1
    have hstep : ifLineStep fs base vm inc recur x = (x, [], []) := by
      cases hfx : findIncIfLine x with
      | none => simp [ifLineStep, hfx]
      | some r =>
        obtain ⟨mt, key, fn⟩ := r
        have hx' : (!truthyO (lookupVM vm key)) = true := by
          rw [hfx] at hx
          exact hx
        have hfalse : truthyO (lookupVM vm key) = false := by
          revert hx'
          cases truthyO (lookupVM vm key) <;> simp
        simp [ifLineStep, hfx, hfalse]
    simp [ifLines, hstep, ih h.2]

theorem ifGo_falsy (fs : FileReader) (base : List Char) (vm : VM)
    (inc recur : List Char → Eff) (html : List Char)
    (hcr : noCR html = true)
    (hfal : noTruthyIncIf vm html = true) :
    ifGo fs base vm inc recur html = ⟨html, [], []⟩ := by
  unfold ifGo
  by_cases hio : hasIncIfOpen html = true
  · rw [if_pos hio]
    simp only [noCR_no_crlf html hcr, Bool.false_eq_true, if_false]
    rw [ifLines_id fs base vm inc recur (splitLines html) hfal]
    rw [split_join_LF html.length html le_rfl hcr]
  · rw [if_neg hio]

/-- C2 counterexample: a conditional-include directive with an absent
(falsy) key is NOT removed — `includeFilesIf` leaves the line, and the
whole document, unchanged (the reader is indeed never invoked). -/
theorem c2_counterexample :
    (includeFilesIf (fun _ => none) 3
        ("<div><!-- includeIf(show, f.txt); --></div>".toList) (".".toList) []).out =
      "<div><!-- includeIf(show, f.txt); --></div>".toList ∧
    (includeFilesIf (fun _ => none) 3
        ("<div><!-- includeIf(show, f.txt); --></div>".toList) (".".toList) []).reads = [] ∧
    (includeFilesIf (fun _ => none) 3
        ("<div><!-- includeIf(show, f.txt); --></div>".toList) (".".toList) []).out ≠
      "<div></div>".toList := by
  refine ⟨by decide, by decide, by decide⟩

/-- C2 amended: for every document (without carriage returns, so that the
line split/join round-trips) in which every recognised conditional-include
directive has an absent or falsy key, `includeFilesIf` never invokes the
file reader, logs nothing, and returns the document unchanged — the
directive text is left in place, not removed. -/
theorem c2_amended (fs : FileReader) (base : List Char) (vm : VM) (d : Nat) (html : List Char)
    (hcr : noCR html = true) (hfal : noTruthyIncIf vm html = true) :
    includeFilesIf fs d html base vm = ⟨html, [], []⟩ := by
  cases d with
  | zero => exact ifGo_falsy fs base vm _ _ html hcr hfal
  | succ d' => exact ifGo_falsy fs base vm _ _ html hcr hfal

/-- Witness for C2's amended statement: the reader that would be invoked
is irrelevant, no call happens and the output equals the input. -/
theorem c2_amended_witness :
    includeFilesIf (fun _ => none) 3
        ("<div><!-- includeIf(show, f.txt); --></div>".toList) (".".toList) [] =
      ⟨"<div><!-- includeIf(show, f.txt); --></div>".toList, [], []⟩ :=
  c2_amended (fun _ => none) (".".toList) [] 3
    ("<div><!-- includeIf(show, f.txt); --></div>".toList) (by decide) (by decide)

theorem includeFiles_clean (fs : FileReader) (base s : List Char)
    (h : scanIncludes s = []) :
    ∀ d, includeFiles fs d s base = ⟨s, [], []⟩ := by
  intro d
  cases d with
  | zero => simp [includeFiles, h, resolveMs]
  | succ d' => simp [includeFiles, h, resolveMs]

theorem includeFiles_single (fs : FileReader) (base s t f c : List Char) (d : Nat)
    (h1 : scanIncludes s = [(t, f)])
    (h2 : fs (joinPath base f) = some c) :
    includeFiles fs (d + 1) s base =
      ⟨replAll s t (includeFiles fs d c base).out,
       joinPath base f :: (includeFiles fs d c base).reads,
       (includeFiles fs d c base).logs⟩ := by
  simp [includeFiles, h1, resolveMs, h2]

/-- C3: `includeFiles` resolves includes transitively — when document `doc`
contains exactly the include of `A`, `A`'s content exactly the include of
`B`, `B`'s exactly the include of `C`, and `C`'s content none, the result
substitutes the fully flattened content (C inside B inside A) at A's
directive position, reading each file once, with sufficient recursion
depth. -/
theorem c3_include_transitive (fs : FileReader) (base : List Char) (d : Nat)
    (doc tA fA aC tB fB bC tC fC cC : List Char)
    (h1 : scanIncludes doc = [(tA, fA)])
    (h2 : fs (joinPath base fA) = some aC)
    (h3 : scanIncludes aC = [(tB, fB)])
    (h4 : fs (joinPath base fB) = some bC)
    (h5 : scanIncludes bC = [(tC, fC)])
    (h6 : fs (joinPath base fC) = some cC)
    (h7 : scanIncludes cC = []) :
    includeFiles fs (d + 3) doc base =
      ⟨replAll doc tA (replAll aC tB (replAll bC tC cC)),
       [joinPath base fA, joinPath base fB, joinPath base fC], []⟩ := by
  have e0 : includeFiles fs d cC base = ⟨cC, [], []⟩ :=
    includeFiles_clean fs base cC h7 d
  have e1 : includeFiles fs (d + 1) bC base = ⟨replAll bC tC cC, [joinPath base fC], []⟩ := by
    rw [includeFiles_single fs base bC tC fC cC d h5 h6, e0]
  have e2 : includeFiles fs (d + 2) aC base =
      ⟨replAll aC tB (replAll bC tC cC), [joinPath base fB, joinPath base fC], []⟩ := by
    rw [includeFiles_single fs base aC tB fB bC (d + 1) h3 h4, e1]
  rw [show d + 3 = (d + 2) + 1 from rfl,
    includeFiles_single fs base doc tA fA aC (d + 2) h1 h2, e2]

/-- Witness for C3 on a concrete three-file chain. -/
theorem c3_include_transitive_witness :
    includeFiles
      (fun p =>
        if p == "A.txt".toList then some ("a[<!-- include(B.txt); -->]a".toList)
        else if p == "B.txt".toList then some ("b[<!-- include(C.txt); -->]b".toList)
        else if p == "C.txt".toList then some ("ccc".toList)
        else none) 3
      ("<p><!-- include(A.txt); --></p>".toList) (".".toList) =
      ⟨"<p>a[b[ccc]b]a</p>".toList, ["A.txt".toList, "B.txt".toList, "C.txt".toList], []⟩ := by
  have h := c3_include_transitive
    (fun p =>
        if p == "A.txt".toList then some ("a[<!-- include(B.txt); -->]a".toList)
        else if p == "B.txt".toList then some ("b[<!-- include(C.txt); -->]b".toList)
        else if p == "C.txt".toList then some ("ccc".toList)
        else none)
    (".".toList) 0
    ("<p><!-- include(A.txt); --></p>".toList)
    ("<!-- include(A.txt); -->".toList) ("A.txt".toList)
    ("a[<!-- include(B.txt); -->]a".toList)
    ("<!-- include(B.txt); -->".toList) ("B.txt".toList)
    ("b[<!-- include(C.txt); -->]b".toList)
    ("<!-- include(C.txt); -->".toList) ("C.txt".toList)
    ("ccc".toList)
    (by decide) (by decide) (by decide) (by decide) (by decide) (by decide) (by decide)
  exact h.trans (by decide)

/-- C4: a failing read never surfaces an error — the failing occurrence is
replaced by the empty string and logged with its filename, the reader is
still consulted for both occurrences, and the other occurrence is resolved
exactly as it would be on its own; in particular `includeFiles` on
`<div><!-- include(missing.txt); --></div>` with an always-failing reader
returns `<div></div>`. -/
theorem c4_include_failure (fs : FileReader) (base : List Char) (d : Nat)
    (doc t1 f1 t2 f2 c : List Char)
    (hs : scanIncludes doc = [(t1, f1), (t2, f2)])
    (hf1 : fs (joinPath base f1) = none)
    (hf2 : fs (joinPath base f2) = some c)
    (hc : scanIncludes c = []) :
    includeFiles fs d doc base =
      ⟨replAll (replAll doc t1 []) t2 c,
       [joinPath base f1, joinPath base f2], [f1]⟩ ∧
    (includeFiles (fun _ => none) 3
        ("<div><!-- include(missing.txt); --></div>".toList) (".".toList)).out =
      "<div></div>".toList := by
  constructor
  · cases d with
    | zero => simp [includeFiles, hs, resolveMs, hf1, hf2]
    | succ d' =>
      have hclean : includeFiles fs d' c base = ⟨c, [], []⟩ :=
        includeFiles_clean fs base c hc d'
      simp [includeFiles, hs, resolveMs, hf1, hf2, hclean]
  · decide

/-- Witness for C4's universal part at a concrete mixed success/failure
document. -/
theorem c4_include_failure_witness :
    includeFiles
      (fun p => if p == "ok.txt".toList then some ("OK".toList) else none) 2
      ("<a><!-- include(bad.txt); --><!-- include(ok.txt); --></a>".toList) (".".toList) =
      ⟨"<a>OK</a>".toList, ["bad.txt".toList, "ok.txt".toList], ["bad.txt".toList]⟩ := by
  have h := (c4_include_failure
    (fun p => if p == "ok.txt".toList then some ("OK".toList) else none)
    (".".toList) 2
    ("<a><!-- include(bad.txt); --><!-- include(ok.txt); --></a>".toList)
    ("<!-- include(bad.txt); -->".toList) ("bad.txt".toList)
    ("<!-- include(ok.txt); -->".toList) ("ok.txt".toList)
    ("OK".toList)
    (by decide) (by decide) (by decide) (by decide)).1
  exact h.trans (by decide)

theorem goRA_id (pat rep : List Char) :
    ∀ f s, hasSub s pat = false → goRA pat rep f s = s := by
  intro f
  induction f with
  | zero => intro s _; rfl
  | succ f ih =>
    intro s h
    cases s with
    | nil => rfl
    | cons x xs =>
      simp only [hasSub, Bool.or_eq_false_iff] at h
      simp only [goRA, h.1, Bool.false_eq_true, if_false]
      rw [ih xs h.2]

theorem replAll_id (s pat rep : List Char) (h : hasSub s pat = false) :
    replAll s pat rep = s := by
  cases pat with
  | nil => rfl
  | cons p ps => exact goRA_id (p :: ps) rep s.length s h

theorem resolveMs_replicate (fs : FileReader) (base : List Char) (R : List Char → Eff)
    (t f c : List Char)
    (hfs : fs (joinPath base f) = some c) (hR : R c = ⟨c, [], []⟩) :
    ∀ n, resolveMs fs base R (List.replicate n (t, f)) =
      (List.replicate n (t, c), List.replicate n (joinPath base f), []) := by
  intro n
  induction n with
  | zero => rfl
  | succ n ih =>
    simp only [List.replicate_succ, resolveMs, hfs, hR, ih]
    simp

theorem foldl_replAll_fix (t c : List Char) :
    ∀ (n : Nat) (A : List Char), hasSub A t = false →
      (List.replicate n (t, c)).foldl (fun h p => replAll h p.1 p.2) A = A := by
  intro n
  induction n with
  | zero => intro A _; rfl
  | succ n ih =>
    intro A h
    simp only [List.replicate_succ, List.foldl_cons]
    rw [replAll_id A t c h]
    exact ih A h

theorem foldl_replAll_replicate (html t c : List Char)
    (hno : hasSub (replAll html t c) t = false) :
    ∀ n, 1 ≤ n →
      (List.replicate n (t, c)).foldl (fun h p => replAll h p.1 p.2) html =
        replAll html t c := by
  intro n hn
  cases n with
  | zero => omega
  | succ m =>
    simp only [List.replicate_succ, List.foldl_cons]
    exact foldl_replAll_fix t c m (replAll html t c) hno

/-- C9 counterexample: two text-identical include directives cause TWO
reader invocations for the same path, not one (the substitution is still
shared). -/
theorem c9_counterexample :
    (includeFiles (fun p => if p == "f.txt".toList then some ("X".toList) else none) 3
        ("<a><!-- include(f.txt); --><!-- include(f.txt); --></a>".toList)
        (".".toList)).reads = ["f.txt".toList, "f.txt".toList] ∧
    (includeFiles (fun p => if p == "f.txt".toList then some ("X".toList) else none) 3
        ("<a><!-- include(f.txt); --><!-- include(f.txt); --></a>".toList)
        (".".toList)).reads.length ≠ 1 ∧
    (includeFiles (fun p => if p == "f.txt".toList then some ("X".toList) else none) 3
        ("<a><!-- include(f.txt); --><!-- include(f.txt); --></a>".toList)
        (".".toList)).out = "<a>XX</a>".toList := by
  refine ⟨by decide, by decide, by decide⟩

/-- C9 amended: for `n` text-identical occurrences of one include
directive, the reader is invoked once per occurrence — `n` times, always
for the same path — and all occurrences are substituted together with the
same content (the single replaceAll of the first iteration). -/
theorem c9_amended (fs : FileReader) (base : List Char) (d : Nat)
    (html t f c : List Char) (n : Nat)
    (hn : 1 ≤ n)
    (hs : scanIncludes html = List.replicate n (t, f))
    (hfs : fs (joinPath base f) = some c)
    (hc : scanIncludes c = [])
    (hno : hasSub (replAll html t c) t = false) :
    includeFiles fs d html base =
      ⟨replAll html t c, List.replicate n (joinPath base f), []⟩ := by
  cases d with
  | zero =>
    simp only [includeFiles, hs]
    rw [resolveMs_replicate fs base _ t f c hfs rfl n]
    simp only []
    rw [foldl_replAll_replicate html t c hno n hn]
  | succ d' =>
    have hclean : includeFiles fs d' c base = ⟨c, [], []⟩ :=
      includeFiles_clean fs base c hc d'
    simp only [includeFiles, hs]
    rw [resolveMs_replicate fs base _ t f c hfs hclean n]
    simp only []
    rw [foldl_replAll_replicate html t c hno n hn]

/-- Witness for C9's amended statement with two identical occurrences. -/
theorem c9_amended_witness :
    includeFiles (fun p => if p == "f.txt".toList then some ("X".toList) else none) 3
        ("<a><!-- include(f.txt); --><!-- include(f.txt); --></a>".toList) (".".toList) =
      ⟨replAll ("<a><!-- include(f.txt); --><!-- include(f.txt); --></a>".toList)
          ("<!-- include(f.txt); -->".toList) ("X".toList),
        List.replicate 2 ("f.txt".toList), []⟩ :=
  c9_amended (fun p => if p == "f.txt".toList then some ("X".toList) else none)
    (".".toList) 3
    ("<a><!-- include(f.txt); --><!-- include(f.txt); --></a>".toList)
    ("<!-- include(f.txt); -->".toList) ("f.txt".toList) ("X".toList) 2
    (by decide) (by decide) (by decide) (by decide) (by decide)

/-- C1 counterexample: `renderTemplate` is NOT the claimed composition —
it runs unconditional inclusion before conditional inclusion (so a
conditional include arriving through a bare include is still resolved,
which the claimed order would leave for minification to delete) and it
never minifies (the double space survives).  On this input the program
yields `B  B` while the claimed pipeline yields the empty string. -/
theorem c1_counterexample :
    (renderTemplate
        (fun p =>
          if p == "a.txt".toList then some ("<!-- includeIf(x, b.txt); -->".toList)
          else if p == "b.txt".toList then some ("B  B".toList)
          else none) 3
        ("<!-- include(a.txt); -->".toList)
        [("x".toList, JsVal.bool true)] (".".toList)).out = "B  B".toList ∧
    (renderTemplate
        (fun p =>
          if p == "a.txt".toList then some ("<!-- includeIf(x, b.txt); -->".toList)
          else if p == "b.txt".toList then some ("B  B".toList)
          else none) 3
        ("<!-- include(a.txt); -->".toList)
        [("x".toList, JsVal.bool true)] (".".toList)).out ≠
      minifyHtml (replacePlaceholders (renderIf
        (includeFiles
          (fun p =>
            if p == "a.txt".toList then some ("<!-- includeIf(x, b.txt); -->".toList)
            else if p == "b.txt".toList then some ("B  B".toList)
            else none) 3
          (includeFilesIf
            (fun p =>
              if p == "a.txt".toList then some ("<!-- includeIf(x, b.txt); -->".toList)
              else if p == "b.txt".toList then some ("B  B".toList)
              else none) 3
            (replacePlaceholders
              (renderIf ("<!-- include(a.txt); -->".toList) [("x".toList, JsVal.bool true)])
              [("x".toList, JsVal.bool true)])
            (".".toList) [("x".toList, JsVal.bool true)]).out
          (".".toList)).out [("x".toList, JsVal.bool true)]) [("x".toList, JsVal.bool true)]) := by
  refine ⟨by decide, by decide⟩

/-- C1 amended: `renderTemplate` applies exactly this fixed sequence,
each step once at top level: conditional-block resolution, placeholder
resolution, unconditional inclusion, conditional inclusion,
conditional-block resolution again, placeholder resolution again — and
no minification; i.e. it equals the composition
replacePlaceholders ∘ renderIf ∘ includeFilesIf ∘ includeFiles ∘
replacePlaceholders ∘ renderIf applied to the input. -/
theorem c1_render_pipeline (fs : FileReader) (d : Nat) (html : List Char) (vm : VM)
    (base : List Char) :
    (renderTemplate fs d html vm base).out =
      replacePlaceholders (renderIf
        (includeFilesIf fs d
          (includeFiles fs d (replacePlaceholders (renderIf html vm) vm) base).out
          base vm).out vm) vm := rfl
